import Mathlib

/-!
Shallow embedding of the Raft consensus module in src/src/server/cmodule.go.

Conventions of the embedding:
* Go int is modelled as Int (terms, ids and indices stay far from 2^63, so
  overflow never matters for the verified properties).
* The in-memory log is a List LogEntry; Go slice reads lg[i] become lg.get? i,
  and the places where Go would panic (index out of range) are either
  unreachable under the theorems' hypotheses or modelled by Option (see
  persistRecordFields).
* Mutex handling, timers, channels and the vote delay are real-time or
  scheduling constructs; handlers are modelled as the sequential state
  transformations they perform, and channel sends are returned as Bool flags
  where a claim mentions them.
* The storage package is not part of src/; following the spec it is modelled
  as named scalars plus the append-only record sequence in insertion order.
-/

namespace CModule

/-- Service is the application command payload (a service identifier and a
type tag). The Go field named Type is rendered SType here because Type is a
reserved word in Lean; SType is also the Go name of its type. -/
structure Service where
  ServiceID : String
  SType : String
deriving DecidableEq, Repr

/-- CMState is the role of a node: Follower, Candidate, Leader or Dead. -/
inductive CMState where
  | Follower
  | Candidate
  | Leader
  | Dead
deriving DecidableEq, Repr

/-- LogEntry mirrors the Go struct of the same name. -/
structure LogEntry where
  Command : Service
  Term : Int
  LeaderId : Int
  Index : Int
  ChosenId : Int
deriving DecidableEq, Repr

/-- CommitEntry is the data reported on the commit channel. -/
structure CommitEntry where
  Command : Service
  Index : Int
  Term : Int
  ChosenId : Int
deriving DecidableEq, Repr

/-- ConsensusModule holds the per-node state used by the verified claims.
The leader-only nextIndex/matchIndex maps live in the replication round and
are passed to leaderAdvanceCommit explicitly, mirroring how the Go code reads
them inside leaderSendAEs. -/
structure ConsensusModule where
  id : Int
  peerIds : List Int
  loadLevel : Int
  currentTerm : Int
  votedFor : Int
  log : List LogEntry
  commitIndex : Int
  lastApplied : Int
  state : CMState
deriving DecidableEq, Repr

/-- RequestVoteArgs mirrors the Go struct. -/
structure RequestVoteArgs where
  Term : Int
  CandidateId : Int
  LastLogIndex : Int
  LastLogTerm : Int
  LoadLevel : Int
deriving DecidableEq, Repr

/-- RequestVoteReply mirrors the Go struct; a freshly allocated reply is zero
valued (Term 0, VoteGranted false, LoadLevel 0), which is what a handler that
returns early leaves behind. -/
structure RequestVoteReply where
  Term : Int
  VoteGranted : Bool
  LoadLevel : Int
deriving DecidableEq, Repr

/-- AppendEntriesArgs mirrors the Go struct. -/
structure AppendEntriesArgs where
  Term : Int
  LeaderId : Int
  PrevLogIndex : Int
  PrevLogTerm : Int
  Entries : List LogEntry
  LeaderCommit : Int
  ChosenId : Int
deriving DecidableEq, Repr

/-- AppendEntriesReply mirrors the Go struct; zero valued on early return. -/
structure AppendEntriesReply where
  Term : Int
  Success : Bool
  ConflictIndex : Int
  ConflictTerm : Int
deriving DecidableEq, Repr

/-- intMin is the helper of the same name at the bottom of cmodule.go. -/
def intMin (a b : Int) : Int := if a < b then a else b

/-- newConsensusModule models the field initialization in NewConsensusModule
(before the optional restoreFromStorage call). -/
def newConsensusModule (id : Int) : ConsensusModule :=
  { id := id, peerIds := [], loadLevel := 10, currentTerm := 0, votedFor := -1,
    log := [], commitIndex := -1, lastApplied := -1, state := CMState.Follower }

/-- lastLogIndexAndTerm returns the last log index and the last entry's term,
or (-1, -1) when the log is empty, as in the Go function of the same name. -/
def lastLogIndexAndTerm (cm : ConsensusModule) : Int × Int :=
  match cm.log.getLast? with
  | some e => ((cm.log.length : Int) - 1, e.Term)
  | none => (-1, -1)

/-- becomeFollower makes the node a follower at the given term and clears its
vote, as in the Go function of the same name. -/
def becomeFollower (cm : ConsensusModule) (term : Int) : ConsensusModule :=
  { cm with state := CMState.Follower, currentTerm := term, votedFor := -1 }

/-- rvTermUpdate is the first step of the RequestVote handler: demote to
Follower when the request carries a newer term. -/
def rvTermUpdate (cm : ConsensusModule) (args : RequestVoteArgs) : ConsensusModule :=
  if args.Term > cm.currentTerm then becomeFollower cm args.Term else cm

/-- RequestVote models the RPC handler. The load-weighted vote delay
(runVoteDelay) only spends real time and is dropped from the sequential
transition; the electionResetEvent timestamp is likewise not modelled. -/
def RequestVote (cm : ConsensusModule) (args : RequestVoteArgs) :
    ConsensusModule × RequestVoteReply :=
  if cm.state = CMState.Dead then
    (cm, { Term := 0, VoteGranted := false, LoadLevel := 0 })
  else
    let last := lastLogIndexAndTerm cm
    let cm := rvTermUpdate cm args
    if cm.currentTerm = args.Term ∧
        (cm.votedFor = -1 ∨ cm.votedFor = args.CandidateId) ∧
        (args.LastLogTerm > last.2 ∨
          (args.LastLogTerm = last.2 ∧ args.LastLogIndex ≥ last.1)) then
      ({ cm with votedFor := args.CandidateId },
        { Term := cm.currentTerm, VoteGranted := true, LoadLevel := cm.loadLevel })
    else
      (cm, { Term := cm.currentTerm, VoteGranted := false, LoadLevel := 0 })

/-- walkMatch is the insertion-point loop of the AppendEntries handler: walk
the local log (from position li) alongside the incoming entries (from
position ni) until one side ends or the terms mismatch, returning the final
(logInsertIndex, newEntriesIndex). -/
def walkMatch (lg : List LogEntry) : Nat → Nat → List LogEntry → Nat × Nat
  | li, ni, [] => (li, ni)
  | li, ni, e :: rest =>
    match lg.get? li with
    | none => (li, ni)
    | some le => if le.Term = e.Term then walkMatch lg (li+1) (ni+1) rest else (li, ni)

/-- scanBack models the backward conflict scan: called with k, it scans
positions k-1, k-2, ... while the entry term equals ct and returns the Go
loop's final i+1 (0 when the scan runs past the front of the log). -/
def scanBack (lg : List LogEntry) (ct : Int) : Nat → Nat
  | 0 => 0
  | k+1 => if (lg.get? k).map LogEntry.Term ≠ some ct then k + 1 else scanBack lg ct k

/-- computeConflict returns (ConflictIndex, ConflictTerm) as populated by the
not-matched branch of AppendEntries. For prevLogIndex below -1 the Go code
panics on a negative slice index; callers never produce such a value and the
getD fallback there is never relied on by a theorem. -/
def computeConflict (lg : List LogEntry) (prevLogIndex : Int) : Int × Int :=
  if prevLogIndex ≥ (lg.length : Int) then ((lg.length : Int), -1)
  else
    let ct := ((lg.get? prevLogIndex.toNat).map LogEntry.Term).getD 0
    ((scanBack lg ct prevLogIndex.toNat : Int), ct)

/-- appendEntriesMatch is the prev-entry check of the AppendEntries handler:
vacuously true at PrevLogIndex -1, otherwise the local entry at PrevLogIndex
must exist and carry PrevLogTerm. -/
def appendEntriesMatch (lg : List LogEntry) (prevLogIndex prevLogTerm : Int) : Prop :=
  prevLogIndex = -1 ∨
    (prevLogIndex < (lg.length : Int) ∧
      (lg.get? prevLogIndex.toNat).map LogEntry.Term = some prevLogTerm)

instance (lg : List LogEntry) (p t : Int) : Decidable (appendEntriesMatch lg p t) := by
  unfold appendEntriesMatch; infer_instance

/-- AppendEntries models the RPC handler as a state transformation returning
the new node state and the reply. The persistToStorage call and the send on
newCommitReadyChan inside the handler touch no consensus state and are
modelled separately (persistRecordFields). -/
def AppendEntries (cm : ConsensusModule) (args : AppendEntriesArgs) :
    ConsensusModule × AppendEntriesReply :=
  if cm.state = CMState.Dead then
    (cm, { Term := 0, Success := false, ConflictIndex := 0, ConflictTerm := 0 })
  else
    let cm := if args.Term > cm.currentTerm then becomeFollower cm args.Term else cm
    if args.Term = cm.currentTerm then
      let cm := if cm.state ≠ CMState.Follower then becomeFollower cm args.Term else cm
      if appendEntriesMatch cm.log args.PrevLogIndex args.PrevLogTerm then
        let w := walkMatch cm.log (args.PrevLogIndex + 1).toNat 0 args.Entries
        let newLog :=
          if w.2 < args.Entries.length then
            cm.log.take w.1 ++ args.Entries.drop w.2
          else cm.log
        let newCommit :=
          if args.LeaderCommit > cm.commitIndex then
            intMin args.LeaderCommit ((newLog.length : Int) - 1)
          else cm.commitIndex
        ({ cm with log := newLog, commitIndex := newCommit },
          { Term := cm.currentTerm, Success := true, ConflictIndex := 0, ConflictTerm := 0 })
      else
        let c := computeConflict cm.log args.PrevLogIndex
        (cm, { Term := cm.currentTerm, Success := false,
               ConflictIndex := c.1, ConflictTerm := c.2 })
    else
      (cm, { Term := cm.currentTerm, Success := false, ConflictIndex := 0, ConflictTerm := 0 })

/-- commitQualifies is the body of the leader's commit recomputation loop at
index i: the entry exists and has the leader's current term, and 1 (the
leader itself) plus the peers whose matchIndex reached i beat the strict
majority threshold over peerCount + 1. -/
def commitQualifies (lg : List LogEntry) (ct : Int) (peerIds : List Int)
    (matchIndex : Int → Int) (i : Nat) : Bool :=
  match lg.get? i with
  | some e =>
      e.Term = ct ∧
        (1 + (peerIds.filter (fun p => matchIndex p ≥ (i : Int))).length) * 2 >
          peerIds.length + 1
  | none => false

/-- commitQualifiesP is the same condition stated as a proposition, the way
the claim about the majority rule reads. -/
def commitQualifiesP (lg : List LogEntry) (ct : Int) (peerIds : List Int)
    (matchIndex : Int → Int) (i : Nat) : Prop :=
  (∃ e, lg.get? i = some e ∧ e.Term = ct) ∧
    (1 + (peerIds.filter (fun p => matchIndex p ≥ (i : Int))).length) * 2 >
      peerIds.length + 1

/-- leaderAdvanceCommit is the commit recomputation a leader runs after a
successful AppendEntries reply (lines 674-687): for i from the saved
commitIndex + 1 to the end of the log, set commitIndex to i whenever the
majority condition at i holds. The Go loop header evaluates its start once,
so the range is fixed by the commitIndex at entry even though the body
reassigns it. -/
def leaderAdvanceCommit (lg : List LogEntry) (ct : Int) (peerIds : List Int)
    (matchIndex : Int → Int) (commitIndex : Int) : Int :=
  ((List.range lg.length).filter (fun i : Nat => commitIndex < (i : Int))).foldl
    (fun ci i => if commitQualifies lg ct peerIds matchIndex i then (i : Int) else ci)
    commitIndex

/-- ElectionTally is the slice of candidate state touched while tallying
RequestVote replies in StartElection: the role, the term fields updated by a
possible demotion, and the votesReceived counter (pre-counted self-vote). -/
structure ElectionTally where
  state : CMState
  currentTerm : Int
  votedFor : Int
  votesReceived : Nat
deriving DecidableEq, Repr

/-- processVoteReply models one reply-processing step of StartElection at the
saved candidate term: ignore when no longer Candidate, demote on a newer
term, and on a granted vote at the saved term increment the count, becoming
Leader when votesReceived * 2 > len(peerIds). -/
def processVoteReply (peerIds : List Int) (savedCurrentTerm : Int)
    (t : ElectionTally) (reply : RequestVoteReply) : ElectionTally :=
  if t.state ≠ CMState.Candidate then t
  else if reply.Term > savedCurrentTerm then
    { t with state := CMState.Follower, currentTerm := reply.Term, votedFor := -1 }
  else if reply.Term = savedCurrentTerm ∧ reply.VoteGranted = true then
    let v := t.votesReceived + 1
    if v * 2 > peerIds.length then
      { t with votesReceived := v, state := CMState.Leader }
    else { t with votesReceived := v }
  else t

/-- emitEntries builds the commit-channel messages for a batch: the k-th
element (counter i starting at 0, as in the Go range loop) carries the
dispatcher's saved term, the absolute index savedLastApplied + i + 1, and the
entry's command and chosen id. -/
def emitEntries (savedTerm savedLastApplied : Int) : List LogEntry → Nat → List CommitEntry
  | [], _ => []
  | e :: rest, i =>
      { Command := e.Command, Index := savedLastApplied + (i : Int) + 1,
        Term := savedTerm, ChosenId := e.ChosenId } :: emitEntries savedTerm savedLastApplied rest (i+1)

/-- commitChanStep is one iteration of commitChanSender after a notification:
under the lock it slices log[lastApplied+1 : commitIndex+1], advances
lastApplied, and then emits the slice on the commit channel. -/
def commitChanStep (cm : ConsensusModule) : ConsensusModule × List CommitEntry :=
  let savedTerm := cm.currentTerm
  let savedLastApplied := cm.lastApplied
  if cm.commitIndex > cm.lastApplied then
    let entries :=
      (cm.log.drop (cm.lastApplied + 1).toNat).take (cm.commitIndex - cm.lastApplied).toNat
    ({ cm with lastApplied := cm.commitIndex },
      emitEntries savedTerm savedLastApplied entries 0)
  else (cm, [])

/-- Submit models the submit path. The chosen id is the result of the
randomized minLoadLevelMap selector and is passed in, since the tie-break is
a random draw. The returned flags are (persisted, triggeredAE,
submitSignaled), recording the persistToStorage call and the sends on
triggerAEChan and SubmitChan. -/
def Submit (cm : ConsensusModule) (command : Service) (chosenId : Int) :
    ConsensusModule × Bool × Bool × Bool :=
  if cm.state = CMState.Leader then
    ({ cm with log := cm.log ++
        [{ Command := command, Term := cm.currentTerm, LeaderId := cm.id,
           Index := (cm.log.length : Int), ChosenId := chosenId }] },
      (true, true, true))
  else (cm, (false, false, true))

/-! ## Persistence and restore

persistToStorage formats the record fields with fmt/strconv and computes a
SHA-512 checksum over the concatenation of the values in Go map iteration
order, which is not deterministic; the iteration order is therefore an
explicit parameter below. SHA-512 itself (crypto/sha512) is implemented here
over Nat words reduced mod 2^64. -/

/-- hexDigitChar maps 0..15 to the lowercase hex digits used by fmt %x. -/
def hexDigitChar (n : Nat) : Char :=
  if n < 10 then Char.ofNat (48 + n) else Char.ofNat (87 + n)

/-- natToHexAux peels hex digits most-significant first; the first argument
is fuel making the recursion structural. -/
def natToHexAux : Nat → Nat → List Char
  | 0, _ => []
  | fuel+1, n => if n = 0 then [] else natToHexAux fuel (n / 16) ++ [hexDigitChar (n % 16)]

/-- natToHex renders a natural in lowercase hex with no leading zeros, as
fmt.Sprintf %x does on a nonnegative int. -/
def natToHex (n : Nat) : String :=
  if n = 0 then "0" else String.mk (natToHexAux (n+1) n)

/-- natToDecAux peels decimal digits most-significant first (fuel first). -/
def natToDecAux : Nat → Nat → List Char
  | 0, _ => []
  | fuel+1, n => if n = 0 then [] else natToDecAux fuel (n / 10) ++ [Char.ofNat (48 + n % 10)]

/-- natToDec renders a natural in decimal. -/
def natToDec (n : Nat) : String :=
  if n = 0 then "0" else String.mk (natToDecAux (n+1) n)

/-- intToDec models strconv.Itoa. -/
def intToDec (i : Int) : String :=
  if i < 0 then "-" ++ natToDec i.natAbs else natToDec i.toNat

/-- fmtService is fmt %v applied to a Service struct value: the fields inside
braces, separated by a space. -/
def fmtService (s : Service) : String :=
  "\x7b" ++ s.ServiceID ++ " " ++ s.SType ++ "\x7d"

/-- utf8EncodeChar gives the UTF-8 bytes of a code point, matching the Go
conversion from string to a byte slice. -/
def utf8EncodeChar (n : Nat) : List Nat :=
  if n < 128 then [n]
  else if n < 2048 then [192 + n / 64, 128 + n % 64]
  else if n < 65536 then [224 + n / 4096, 128 + (n / 64) % 64, 128 + n % 64]
  else [240 + n / 262144, 128 + (n / 4096) % 64, 128 + (n / 64) % 64, 128 + n % 64]

/-- strBytes is the byte sequence of a string (Go []byte conversion). -/
def strBytes (s : String) : List Nat :=
  (s.toList.map (fun c => utf8EncodeChar c.toNat)).flatten

/-- w64 truncates to a 64-bit word. -/
def w64 (n : Nat) : Nat := n % 18446744073709551616

/-- rotr64 rotates a 64-bit word right by n bits (the two shifted parts
occupy disjoint bit ranges, so their sum is their bitwise or). -/
def rotr64 (x n : Nat) : Nat := x / 2 ^ n + x % 2 ^ n * 2 ^ (64 - n)

/-- ch64 is the SHA-512 choice function (the complement of x within 64 bits
is 2^64 - 1 - x). -/
def ch64 (x y z : Nat) : Nat := (x &&& y) ^^^ ((18446744073709551615 - x) &&& z)

/-- maj64 is the SHA-512 majority function. -/
def maj64 (x y z : Nat) : Nat := (x &&& y) ^^^ (x &&& z) ^^^ (y &&& z)

/-- bigS0 is the SHA-512 Sigma0 function. -/
def bigS0 (x : Nat) : Nat := rotr64 x 28 ^^^ rotr64 x 34 ^^^ rotr64 x 39

/-- bigS1 is the SHA-512 Sigma1 function. -/
def bigS1 (x : Nat) : Nat := rotr64 x 14 ^^^ rotr64 x 18 ^^^ rotr64 x 41

/-- smallS0 is the SHA-512 sigma0 function (x >>> 7 is x / 128). -/
def smallS0 (x : Nat) : Nat := rotr64 x 1 ^^^ rotr64 x 8 ^^^ x / 128

/-- smallS1 is the SHA-512 sigma1 function (x >>> 6 is x / 64). -/
def smallS1 (x : Nat) : Nat := rotr64 x 19 ^^^ rotr64 x 61 ^^^ x / 64

/-- sha512K is the table of 80 SHA-512 round constants (FIPS 180-4: the
first 64 bits of the fractional parts of the cube roots of the first 80
primes), written in decimal. -/
def sha512K : List Nat :=
  [4794697086780616226, 8158064640168781261, 13096744586834688815,
   16840607885511220156, 4131703408338449720, 6480981068601479193,
   10538285296894168987, 12329834152419229976, 15566598209576043074,
   1334009975649890238, 2608012711638119052, 6128411473006802146,
   8268148722764581231, 9286055187155687089, 11230858885718282805,
   13951009754708518548, 16472876342353939154, 17275323862435702243,
   1135362057144423861, 2597628984639134821, 3308224258029322869,
   5365058923640841347, 6679025012923562964, 8573033837759648693,
   10970295158949994411, 12119686244451234320, 12683024718118986047,
   13788192230050041572, 14330467153632333762, 15395433587784984357,
   489312712824947311, 1452737877330783856, 2861767655752347644,
   3322285676063803686, 5560940570517711597, 5996557281743188959,
   7280758554555802590, 8532644243296465576, 9350256976987008742,
   10552545826968843579, 11727347734174303076, 12113106623233404929,
   14000437183269869457, 14369950271660146224, 15101387698204529176,
   15463397548674623760, 17586052441742319658, 1182934255886127544,
   1847814050463011016, 2177327727835720531, 2830643537854262169,
   3796741975233480872, 4115178125766777443, 5681478168544905931,
   6601373596472566643, 7507060721942968483, 8399075790359081724,
   8693463985226723168, 9568029438360202098, 10144078919501101548,
   10430055236837252648, 11840083180663258601, 13761210420658862357,
   14299343276471374635, 14566680578165727644, 15097957966210449927,
   16922976911328602910, 17689382322260857208, 500013540394364858,
   748580250866718886, 1242879168328830382, 1977374033974150939,
   2944078676154940804, 3659926193048069267, 4368137639120453308,
   4836135668995329356, 5532061633213252278, 6448918945643986474,
   6902733635092675308, 7801388544844847127]

/-- sha512IV is the SHA-512 initial hash value (FIPS 180-4: the first
64 bits of the fractional parts of the square roots of the first 8 primes),
written in decimal. -/
def sha512IV : List Nat :=
  [7640891576956012808, 13503953896175478587, 4354685564936845355,
   11912009170470909681, 5840696475078001361, 11170449401992604703,
   2270897969802886507, 6620516959819538809]

/-- beBytes renders n as k big-endian bytes. -/
def beBytes (k n : Nat) : List Nat :=
  (List.range k).map (fun i => n / 2 ^ (8 * (k - 1 - i)) % 256)

/-- bytesToWord folds big-endian bytes into a word. -/
def bytesToWord (bs : List Nat) : Nat := bs.foldl (fun a b => a * 256 + b) 0

/-- chunksAux splits a list into pieces of n elements (fuel first). -/
def chunksAux (n : Nat) : Nat → List Nat → List (List Nat)
  | 0, _ => []
  | _, [] => []
  | fuel+1, l => l.take n :: chunksAux n fuel (l.drop n)

/-- sha512pad appends the 0x80 byte, zeros up to 112 mod 128, and the
128-bit big-endian bit length. -/
def sha512pad (msg : List Nat) : List Nat :=
  let z := (240 - (msg.length + 1) % 128) % 128
  msg ++ [128] ++ List.replicate z 0 ++ beBytes 16 (8 * msg.length)

/-- sha512schedule extends the 16 message words of a block to the 80-entry
schedule. -/
def sha512schedule (m : List Nat) : List Nat :=
  (List.range 64).foldl
    (fun s _ =>
      let t := s.length
      s ++ [w64 (smallS1 (s.getD (t-2) 0) + s.getD (t-7) 0 +
                 smallS0 (s.getD (t-15) 0) + s.getD (t-16) 0)])
    m

/-- sha512compress runs the 80 rounds on one block and adds the result to
the incoming state. -/
def sha512compress (h : List Nat) (m : List Nat) : List Nat :=
  let sched := sha512schedule m
  let f := (List.range 80).foldl
    (fun (s : List Nat) t =>
      match s with
      | [a, b, c, d, e, f1, g, h1] =>
        let t1 := w64 (h1 + bigS1 e + ch64 e f1 g + sha512K.getD t 0 + sched.getD t 0)
        let t2 := w64 (bigS0 a + maj64 a b c)
        [w64 (t1 + t2), a, b, c, w64 (d + t1), e, f1, g]
      | other => other) h
  List.zipWith (fun a b => w64 (a + b)) h f

/-- sha512 maps a byte sequence to the eight 64-bit words of its digest. -/
def sha512 (msg : List Nat) : List Nat :=
  let p := sha512pad msg
  (chunksAux 128 p.length p).foldl
    (fun h blk => sha512compress h ((chunksAux 8 blk.length blk).map bytesToWord)) sha512IV

/-- byteToHex renders one byte as two lowercase hex digits. -/
def byteToHex (b : Nat) : String := String.mk [hexDigitChar (b / 16 % 16), hexDigitChar (b % 16)]

/-- sha512hex is the lowercase hex rendering of the SHA-512 digest of a byte
sequence, as fmt %x prints the [64]byte of crypto/sha512 Sum512. -/
def sha512hex (msg : List Nat) : String :=
  (((sha512 msg).map (beBytes 8)).flatten.map byteToHex).foldl (fun a b => a ++ b) ""

/-- persistRecordFields builds, in Go insertion order, the six (key,
formatted value) pairs of the record written by persistToStorage (the
checksum is added afterwards by persistChecksum). It returns none exactly
when the Go code panics: the clamped index last is forced to 0 when
len(log) - 1 < 0, and cm.log[0] is then read out of range on an empty log. -/
def persistRecordFields (cm : ConsensusModule) : Option (List (String × String)) :=
  let last := if (cm.log.length : Int) - 1 < 0 then 0 else cm.log.length - 1
  match cm.log.get? last with
  | none => none
  | some e => some
      [("Id", natToHex last),
       ("Term", intToDec cm.currentTerm),
       ("Command", fmtService e.Command),
       ("Leader", intToDec e.LeaderId),
       ("Chosen", intToDec e.ChosenId),
       ("VotedFor", intToDec cm.votedFor)]

/-- checksumInput concatenates the formatted values of the record fields in
the given map iteration order, as the range loop over termData does; Go map
iteration order is nondeterministic, so the order is a parameter. -/
def checksumInput (fields : List (String × String)) (order : List String) : String :=
  (order.filterMap (fun k => fields.lookup k)).foldl (fun a b => a ++ b) ""

/-- persistChecksum is the checksum field persistToStorage stores for a node
state, given the map iteration order of the run; none when the record build
panics (empty log). -/
def persistChecksum (cm : ConsensusModule) (order : List String) : Option String :=
  (persistRecordFields cm).map (fun f => sha512hex (strBytes (checksumInput f order)))

/-- persistKeys is the key set of the record map, in Go insertion order. -/
def persistKeys : List String := ["Id", "Term", "Command", "Leader", "Chosen", "VotedFor"]

/-! ## Restore -/

/-- StoredRecord models one record of the durable store's append-only
sequence, as read back by restoreFromStorage: the scalar fields are the
strings written by persistToStorage and Command is the embedded object with
ServiceID and Type. The storage package itself is not part of src/ and is
modelled from the spec. -/
structure StoredRecord where
  Term : String
  Leader : String
  Chosen : String
  CommandServiceID : String
  CommandType : String
deriving DecidableEq, Repr

/-- Storage models the durable store contents on restore: the Term and
VotedFor scalars plus the record sequence. Modelled from the spec: the
storage package (st.Storage with Get/GetLog) is not under src/; per the spec
the store keeps named scalars and an append-only record sequence, and
GetLog/all_records returns that sequence in insertion order. -/
structure Storage where
  Term : String
  VotedFor : String
  log : List StoredRecord
deriving DecidableEq, Repr

/-- parseDecNat parses an unsigned decimal numeral, none on a malformed or
empty string. -/
def parseDecNat (cs : List Char) : Option Nat :=
  if cs.isEmpty then none
  else cs.foldl (fun acc c =>
    match acc with
    | none => none
    | some n => if 48 ≤ c.toNat ∧ c.toNat ≤ 57 then some (n * 10 + (c.toNat - 48)) else none)
    (some 0)

/-- atoi models strconv.Atoi with the error ignored, as the source does: on
any parse error the Go assignment leaves the zero value 0. -/
def atoi (s : String) : Int :=
  match s.toList with
  | '-' :: rest =>
    match parseDecNat rest with
    | some n => -(n : Int)
    | none => 0
  | cs =>
    match parseDecNat cs with
    | some n => (n : Int)
    | none => 0

/-- restoreEntries rebuilds log entries from the stored record sequence the
way the range loop in restoreFromStorage does: the entry built from the
record at position i gets Index = len(logs) - i - 1. -/
def restoreEntries (n : Nat) : List StoredRecord → Nat → List LogEntry
  | [], _ => []
  | r :: rest, i =>
      { Command := { ServiceID := r.CommandServiceID, SType := r.CommandType },
        Term := atoi r.Term, LeaderId := atoi r.Leader,
        Index := (n : Int) - (i : Int) - 1, ChosenId := atoi r.Chosen }
        :: restoreEntries n rest (i+1)

/-- restoreFromStorage reinstates currentTerm and votedFor from the named
scalars and appends the entries rebuilt from the record sequence. -/
def restoreFromStorage (cm : ConsensusModule) (st : Storage) : ConsensusModule :=
  { cm with
    currentTerm := atoi st.Term,
    votedFor := atoi st.VotedFor,
    log := cm.log ++ restoreEntries st.log.length st.log 0 }

/-! ## Concrete states used by counterexamples and witnesses -/

/-- svc0 is a small concrete command. -/
def svc0 : Service := { ServiceID := "s", SType := "0" }

/-- mkEntry builds a log entry with the given term at the given index. -/
def mkEntry (t idx : Int) : LogEntry :=
  { Command := svc0, Term := t, LeaderId := 1, Index := idx, ChosenId := 1 }

/-- leaderNode is a concrete leader at term 4 with one entry. -/
def leaderNode : ConsensusModule :=
  { id := 1, peerIds := [2, 3], loadLevel := 4, currentTerm := 4, votedFor := 1,
    log := [mkEntry 4 0], commitIndex := -1, lastApplied := -1, state := CMState.Leader }

/-- followerNode is a concrete follower at term 1 with no vote cast. -/
def followerNode : ConsensusModule :=
  { id := 2, peerIds := [1, 3], loadLevel := 6, currentTerm := 1, votedFor := -1,
    log := [], commitIndex := -1, lastApplied := -1, state := CMState.Follower }

/-- rvArgs is a vote request from candidate 1 at term 2 with an empty log. -/
def rvArgs : RequestVoteArgs :=
  { Term := 2, CandidateId := 1, LastLogIndex := -1, LastLogTerm := -1, LoadLevel := 5 }

/-- deadNode is a stopped node whose state would otherwise allow a grant. -/
def deadNode : ConsensusModule :=
  { id := 2, peerIds := [1], loadLevel := 3, currentTerm := 1, votedFor := -1,
    log := [], commitIndex := -1, lastApplied := -1, state := CMState.Dead }

/-- deadArgs is a vote request matching deadNode's term with an up-to-date
log. -/
def deadArgs : RequestVoteArgs :=
  { Term := 1, CandidateId := 1, LastLogIndex := -1, LastLogTerm := -1, LoadLevel := 5 }

/-- c2node is a follower at term 2 whose log terms are 1, 2, 1 — the same
term recurring in two separate runs. -/
def c2node : ConsensusModule :=
  { id := 3, peerIds := [1, 2], loadLevel := 5, currentTerm := 2, votedFor := -1,
    log := [mkEntry 1 0, mkEntry 2 1, mkEntry 1 2], commitIndex := -1,
    lastApplied := -1, state := CMState.Follower }

/-- c2args is a failing AppendEntries probe at c2node's term with
PrevLogIndex 2 and a mismatching PrevLogTerm. -/
def c2args : AppendEntriesArgs :=
  { Term := 2, LeaderId := 9, PrevLogIndex := 2, PrevLogTerm := 3, Entries := [],
    LeaderCommit := -1, ChosenId := -1 }

/-- c2wNode is a follower at term 2 with nondecreasing log terms 1, 2, 2. -/
def c2wNode : ConsensusModule :=
  { id := 3, peerIds := [1, 2], loadLevel := 5, currentTerm := 2, votedFor := -1,
    log := [mkEntry 1 0, mkEntry 2 1, mkEntry 2 2], commitIndex := -1,
    lastApplied := -1, state := CMState.Follower }

/-- c2wArgs is a failing AppendEntries probe against c2wNode at
PrevLogIndex 2 with a mismatching PrevLogTerm. -/
def c2wArgs : AppendEntriesArgs :=
  { Term := 2, LeaderId := 9, PrevLogIndex := 2, PrevLogTerm := 3, Entries := [],
    LeaderCommit := -1, ChosenId := -1 }

/-- c6node is a follower at term 2 whose single committed entry was created
at the older term 1. -/
def c6node : ConsensusModule :=
  { id := 1, peerIds := [2, 3], loadLevel := 5, currentTerm := 2, votedFor := 1,
    log := [{ Command := svc0, Term := 1, LeaderId := 2, Index := 0, ChosenId := 3 }],
    commitIndex := 0, lastApplied := -1, state := CMState.Follower }

/-- c6wNode has two committed, unapplied entries at the current term. -/
def c6wNode : ConsensusModule :=
  { id := 1, peerIds := [2, 3], loadLevel := 5, currentTerm := 1, votedFor := 1,
    log := [mkEntry 1 0, mkEntry 1 1], commitIndex := 1, lastApplied := -1,
    state := CMState.Leader }

/-- c7args is a heartbeat carrying a leader commit of 0 for leaderNode. -/
def c7args : AppendEntriesArgs :=
  { Term := 4, LeaderId := 2, PrevLogIndex := 0, PrevLogTerm := 4, Entries := [],
    LeaderCommit := 0, ChosenId := -1 }

/-- c8entry is the single log entry of c8node. -/
def c8entry : LogEntry :=
  { Command := { ServiceID := "svcA", SType := "0" }, Term := 5, LeaderId := 1,
    Index := 0, ChosenId := 3 }

/-- c8node is a concrete node with one entry, used to evaluate the persisted
record and its checksum. -/
def c8node : ConsensusModule :=
  { id := 1, peerIds := [2, 3], loadLevel := 4, currentTerm := 5, votedFor := 2,
    log := [c8entry], commitIndex := -1, lastApplied := -1, state := CMState.Leader }

/-- persistKeysSwapped is persistKeys with the first two keys exchanged —
one of the 720 iteration orders the Go runtime may use on the record map. -/
def persistKeysSwapped : List String :=
  ["Term", "Id", "Command", "Leader", "Chosen", "VotedFor"]

end CModule

/-! ## Theorems -/

namespace CModule

/-- sha512 agrees with FIPS 180-4 on the empty message. -/
example : sha512hex (strBytes "") =
    "cf83e1357eefb8bdf1542850d66d8007d620e4050b5715dc83f4a921d36ce9ce47d0d13c5d85f2b0ff8318d2877eec2f63b931bd47417a81a538327af927da3e" := by
  set_option maxRecDepth 100000 in decide

/-- sha512 agrees with FIPS 180-4 on the standard one-block vector abc. -/
example : sha512hex (strBytes "abc") =
    "ddaf35a193617abacc417349ae20413112e6fa4e89a97ea20a9eeee64b55d39a2192992a274fc1a836ba3c23a3feebbd454d4423643ce80e2a9ac94fa54ca49f" := by
  set_option maxRecDepth 100000 in decide

/-- C10: persistToStorage clamps the last-entry index to 0 when the log is
empty and then reads cm.log[0] unconditionally, so it panics (modelled as
none) exactly when the log is empty; with a non-empty log the access is in
bounds and a record is produced. -/
theorem persistRecordFields_none_iff (cm : ConsensusModule) :
    persistRecordFields cm = none ↔ cm.log = [] := by
  unfold persistRecordFields
  rcases h : cm.log with _ | ⟨a, l⟩
  · simp
  · have h1 : ¬ (((a :: l).length : Int) - 1 < 0) := by simp
    rw [if_neg h1]
    have h3 : (a :: l).length - 1 < (a :: l).length := by simp
    simp [List.get?_eq_get h3]

/-- C9: Submit on a non-Leader changes nothing, persists nothing, triggers
no replication, and still signals the submit channel; on a Leader it appends
exactly the entry {command, currentTerm, self id, old log length, chosenId},
persists, and signals both the replication trigger and the submit channel. -/
theorem submit_spec (cm : ConsensusModule) (command : Service) (chosenId : Int) :
    (cm.state ≠ CMState.Leader →
      Submit cm command chosenId = (cm, (false, false, true))) ∧
    (cm.state = CMState.Leader →
      (Submit cm command chosenId).1 =
        { cm with log := cm.log ++
            [{ Command := command, Term := cm.currentTerm, LeaderId := cm.id,
               Index := (cm.log.length : Int), ChosenId := chosenId }] } ∧
      (Submit cm command chosenId).2 = (true, true, true)) := by
  unfold Submit
  constructor
  · intro h
    rw [if_neg h]
  · intro h
    rw [if_pos h]
    exact ⟨rfl, rfl⟩

/-- submit_spec applied at a concrete leader: the appended entry carries the
command, the leader's term 4, the leader's id 1, old length 1, chosen id 3. -/
theorem submit_spec_witness :
    leaderNode.state = CMState.Leader ∧
    (Submit leaderNode svc0 3).1.log =
      [mkEntry 4 0,
       { Command := svc0, Term := 4, LeaderId := 1, Index := 1, ChosenId := 3 }] :=
  ⟨rfl, by
    have h := (submit_spec leaderNode svc0 3).2 rfl
    rw [h.1]
    decide⟩

/-- C5: evaluated at a stored sequence of two records, restoreFromStorage
rebuilds the scalars but assigns Index = len(logs) - i - 1, so the entry at
position 0 of the sequence gets index 1 and the entry at position 1 gets
index 0 — the reverse of position-in-sequence assignment. -/
theorem restore_reverses_indices :
    (restoreFromStorage (newConsensusModule 1)
        { Term := "5", VotedFor := "2",
          log := [{ Term := "3", Leader := "1", Chosen := "2",
                    CommandServiceID := "svcA", CommandType := "0" },
                  { Term := "4", Leader := "1", Chosen := "2",
                    CommandServiceID := "svcB", CommandType := "0" }] }).currentTerm = 5 ∧
    (restoreFromStorage (newConsensusModule 1)
        { Term := "5", VotedFor := "2",
          log := [{ Term := "3", Leader := "1", Chosen := "2",
                    CommandServiceID := "svcA", CommandType := "0" },
                  { Term := "4", Leader := "1", Chosen := "2",
                    CommandServiceID := "svcB", CommandType := "0" }] }).votedFor = 2 ∧
    (restoreFromStorage (newConsensusModule 1)
        { Term := "5", VotedFor := "2",
          log := [{ Term := "3", Leader := "1", Chosen := "2",
                    CommandServiceID := "svcA", CommandType := "0" },
                  { Term := "4", Leader := "1", Chosen := "2",
                    CommandServiceID := "svcB", CommandType := "0" }] }).log.map
        (fun e => (e.Command.ServiceID, e.Index)) = [("svcA", 1), ("svcB", 0)] := by
  decide

/-- C4: a Candidate processing a RequestVote reply becomes Leader exactly
when the reply is a grant at the saved term and the incremented vote count
(self-vote pre-counted in votesReceived) satisfies votes * 2 > len(peerIds),
the peer list excluding self. -/
theorem processVoteReply_leader_iff (peerIds : List Int) (savedTerm : Int)
    (t : ElectionTally) (reply : RequestVoteReply) (h : t.state = CMState.Candidate) :
    (processVoteReply peerIds savedTerm t reply).state = CMState.Leader ↔
      (reply.Term = savedTerm ∧ reply.VoteGranted = true ∧
        (t.votesReceived + 1) * 2 > peerIds.length) := by
  unfold processVoteReply
  rw [if_neg (by simp [h])]
  by_cases h1 : reply.Term > savedTerm
  · rw [if_pos h1]
    simp only [ElectionTally.mk.injEq]
    constructor
    · intro hc; exact absurd hc (by simp)
    · rintro ⟨rfl, -, -⟩; omega
  · rw [if_neg h1]
    by_cases h2 : reply.Term = savedTerm ∧ reply.VoteGranted = true
    · rw [if_pos h2]
      by_cases h3 : (t.votesReceived + 1) * 2 > peerIds.length
      · rw [if_pos h3]
        simpa using ⟨h2.1, h2.2, h3⟩
      · rw [if_neg h3]
        simp only [h]
        constructor
        · intro hc; exact absurd hc (by simp)
        · rintro ⟨-, -, hc⟩; exact absurd hc h3
    · rw [if_neg h2]
      rw [h]
      constructor
      · intro hc; exact absurd hc (by simp)
      · rintro ⟨ha, hb, -⟩; exact absurd ⟨ha, hb⟩ h2

/-- processVoteReply_leader_iff at a concrete tally: a Candidate with 1 vote
among 2 peers that receives a grant at its term reaches 2 votes and
2 * 2 > 2, so it becomes Leader. -/
theorem processVoteReply_leader_iff_witness :
    (processVoteReply [2, 3] 1
        { state := CMState.Candidate, currentTerm := 1, votedFor := 1, votesReceived := 1 }
        { Term := 1, VoteGranted := true, LoadLevel := 5 }).state = CMState.Leader :=
  (processVoteReply_leader_iff [2, 3] 1
      { state := CMState.Candidate, currentTerm := 1, votedFor := 1, votesReceived := 1 }
      { Term := 1, VoteGranted := true, LoadLevel := 5 } rfl).mpr
    ⟨rfl, rfl, by decide⟩

/-- C3 (amended): on a non-Dead node, RequestVote grants exactly when the
request term equals the handler's currentTerm after the initial higher-term
demotion, votedFor (after that demotion) is -1 or the candidate, and the
candidate's log is at least as up-to-date; on a grant the node records
votedFor = candidate and the reply carries the node's own loadLevel. -/
theorem requestVote_grant_characterization (cm : ConsensusModule) (args : RequestVoteArgs)
    (h : cm.state ≠ CMState.Dead) :
    ((RequestVote cm args).2.VoteGranted = true ↔
      ((rvTermUpdate cm args).currentTerm = args.Term ∧
        ((rvTermUpdate cm args).votedFor = -1 ∨
          (rvTermUpdate cm args).votedFor = args.CandidateId) ∧
        (args.LastLogTerm > (lastLogIndexAndTerm cm).2 ∨
          (args.LastLogTerm = (lastLogIndexAndTerm cm).2 ∧
            args.LastLogIndex ≥ (lastLogIndexAndTerm cm).1)))) ∧
    ((RequestVote cm args).2.VoteGranted = true →
      (RequestVote cm args).1.votedFor = args.CandidateId ∧
      (RequestVote cm args).2.LoadLevel = cm.loadLevel) := by
  unfold RequestVote
  rw [if_neg h]
  dsimp only
  split_ifs with hc
  · refine ⟨by simp [hc], fun _ => ⟨rfl, ?_⟩⟩
    unfold rvTermUpdate becomeFollower
    split_ifs <;> rfl
  · exact ⟨by simp [hc], by simp⟩

/-- requestVote_grant_characterization at a concrete follower: a request at
term 2 from candidate 1 against followerNode (term 1, no vote, empty log) is
granted, votedFor becomes 1, and the reply carries load level 6. -/
theorem requestVote_grant_characterization_witness :
    (RequestVote followerNode rvArgs).2.VoteGranted = true ∧
    (RequestVote followerNode rvArgs).1.votedFor = 1 ∧
    (RequestVote followerNode rvArgs).2.LoadLevel = 6 := by
  have h := requestVote_grant_characterization followerNode rvArgs (by decide)
  have hg : (RequestVote followerNode rvArgs).2.VoteGranted = true :=
    h.1.mpr (by decide)
  exact ⟨hg, (h.2 hg).1, (h.2 hg).2⟩

/-- C3 counterexample: deadNode satisfies every grant condition of the claim
(request term equals currentTerm, votedFor is -1, candidate log at least as
up-to-date), yet the handler returns VoteGranted = false, so the claimed
if-and-only-if fails on a Dead node. -/
theorem requestVote_dead_denies :
    (RequestVote deadNode deadArgs).2.VoteGranted = false ∧
    deadNode.currentTerm = deadArgs.Term ∧
    deadNode.votedFor = -1 ∧
    (deadArgs.LastLogTerm = (lastLogIndexAndTerm deadNode).2 ∧
      deadArgs.LastLogIndex ≥ (lastLogIndexAndTerm deadNode).1) := by
  decide

/-- emitEntries preserves the batch length. -/
theorem emitEntries_length (st sla : Int) :
    ∀ (l : List LogEntry) (base : Nat), (emitEntries st sla l base).length = l.length := by
  intro l
  induction l with
  | nil => intro base; rfl
  | cons e rest ih => intro base; simp [emitEntries, ih (base + 1)]

/-- emitEntries at position k emits the k-th batch entry with index
sla + (base + k) + 1, the dispatcher's saved term, and the entry's own
command and chosen id. -/
theorem emitEntries_get (st sla : Int) :
    ∀ (l : List LogEntry) (base k : Nat),
      (emitEntries st sla l base).get? k =
        (l.get? k).map (fun e =>
          { Command := e.Command, Index := sla + ((base + k : Nat) : Int) + 1,
            Term := st, ChosenId := e.ChosenId }) := by
  intro l
  induction l with
  | nil => intro base k; simp [emitEntries]
  | cons e rest ih =>
    intro base k
    cases k with
    | zero => simp [emitEntries]
    | succ k =>
      have h : base + 1 + k = base + (k + 1) := by omega
      simp only [emitEntries, List.get?_cons_succ, ih (base + 1) k, h]

/-- C6 (amended): after a notification with unapplied committed entries, the
dispatcher advances lastApplied to commitIndex and emits the batch
log[lastApplied+1 : commitIndex+1] in strictly ascending index order,
exactly once per position: the k-th message carries absolute index
lastApplied + k + 1 and the entry's command and chosen id — but the Term
field is the dispatcher's saved currentTerm, not the entry's own term. -/
theorem commitChanStep_spec (cm : ConsensusModule)
    (h1 : -1 ≤ cm.lastApplied) (h2 : cm.lastApplied < cm.commitIndex)
    (h3 : cm.commitIndex < (cm.log.length : Int)) :
    (commitChanStep cm).1 = { cm with lastApplied := cm.commitIndex } ∧
    ((commitChanStep cm).2.length : Int) = cm.commitIndex - cm.lastApplied ∧
    (∀ k : Nat, (k : Int) < cm.commitIndex - cm.lastApplied →
      (commitChanStep cm).2.get? k =
        (cm.log.get? ((cm.lastApplied + 1).toNat + k)).map (fun e =>
          { Command := e.Command, Index := cm.lastApplied + (k : Int) + 1,
            Term := cm.currentTerm, ChosenId := e.ChosenId })) := by
  unfold commitChanStep
  rw [if_pos h2]
  dsimp only
  refine ⟨rfl, ?_, ?_⟩
  · rw [emitEntries_length, List.length_take, List.length_drop]
    have hmin : (cm.commitIndex - cm.lastApplied).toNat ≤
        cm.log.length - (cm.lastApplied + 1).toNat := by omega
    rw [Nat.min_eq_left hmin]
    omega
  · intro k hk
    rw [emitEntries_get]
    have hklt : k < (cm.commitIndex - cm.lastApplied).toNat := by omega
    rw [List.get?_take hklt, List.get?_drop]
    simp only [Nat.zero_add]

/-- commitChanStep_spec at a concrete node: with two committed, unapplied
entries the dispatcher advances lastApplied to 1 and emits two messages. -/
theorem commitChanStep_spec_witness :
    (commitChanStep c6wNode).1.lastApplied = 1 ∧
    ((commitChanStep c6wNode).2.length : Int) = 2 := by
  have h := commitChanStep_spec c6wNode (by decide) (by decide) (by decide)
  constructor
  · rw [h.1]; decide
  · exact h.2.1

/-- C6 counterexample: at c6node the single committed entry was created at
term 1, but the dispatcher (running at currentTerm 2) emits it with Term 2:
the commit message does not carry the entry's own term. -/
theorem commitChanStep_term_not_entry_term :
    (commitChanStep c6node).2.map CommitEntry.Term = [2] ∧
    c6node.log.map LogEntry.Term = [1] := by
  decide

/-- AppendEntries leaves lastApplied unchanged, and either leaves
commitIndex unchanged or (when the leader commit exceeds it) sets it to
min(LeaderCommit, new log length - 1). -/
theorem appendEntries_commit_cases (cm : ConsensusModule) (args : AppendEntriesArgs) :
    (AppendEntries cm args).1.lastApplied = cm.lastApplied ∧
    ((AppendEntries cm args).1.commitIndex = cm.commitIndex ∨
      (cm.commitIndex < args.LeaderCommit ∧
        (AppendEntries cm args).1.commitIndex =
          intMin args.LeaderCommit (((AppendEntries cm args).1.log.length : Int) - 1))) := by
  unfold AppendEntries becomeFollower
  dsimp only
  split_ifs <;>
    first
      | exact ⟨rfl, Or.inl rfl⟩
      | exact ⟨rfl, Or.inr ⟨by assumption, rfl⟩⟩

/-- foldl_ge_init: the commit-recomputation fold never goes below a bound
that the initial accumulator and every candidate index satisfy. -/
theorem foldl_ge_init (q : Nat → Bool) :
    ∀ (l : List Nat) (c c0 : Int), c0 ≤ c → (∀ i ∈ l, c0 ≤ (i : Int)) →
      c0 ≤ l.foldl (fun a i => if q i then (i : Int) else a) c := by
  intro l
  induction l with
  | nil => intro c c0 hc _; simpa using hc
  | cons a t ih =>
    intro c c0 hc hall
    simp only [List.foldl_cons]
    by_cases hq : q a = true
    · simp only [hq, if_true]
      exact ih _ c0 (hall a (by simp)) (fun i hi => hall i (List.mem_cons_of_mem _ hi))
    · simp only [hq, if_false]
      exact ih _ c0 hc (fun i hi => hall i (List.mem_cons_of_mem _ hi))

/-- C7: across the operations that touch them, commitIndex never decreases
and lastApplied never exceeds commitIndex: the AppendEntries handler leaves
lastApplied unchanged and only moves commitIndex up (given that commitIndex
stays below the reconciled log length, the bound the protocol maintains),
the leader's commit recomputation never lowers commitIndex, and the commit
dispatcher leaves commitIndex unchanged and raises lastApplied at most to
commitIndex. -/
theorem commit_monotonic (cm cmc : ConsensusModule) (args : AppendEntriesArgs)
    (lg : List LogEntry) (ct : Int) (peerIds : List Int) (mi : Int → Int) (ci : Int) :
    ((cm.commitIndex < ((AppendEntries cm args).1.log.length : Int) →
        cm.commitIndex ≤ (AppendEntries cm args).1.commitIndex) ∧
      (AppendEntries cm args).1.lastApplied = cm.lastApplied ∧
      (cm.lastApplied ≤ cm.commitIndex →
        cm.commitIndex < ((AppendEntries cm args).1.log.length : Int) →
        (AppendEntries cm args).1.lastApplied ≤ (AppendEntries cm args).1.commitIndex)) ∧
    (ci ≤ leaderAdvanceCommit lg ct peerIds mi ci) ∧
    ((commitChanStep cmc).1.commitIndex = cmc.commitIndex ∧
      (cmc.lastApplied ≤ cmc.commitIndex →
        (commitChanStep cmc).1.lastApplied ≤ (commitChanStep cmc).1.commitIndex)) := by
  obtain ⟨hla, hci⟩ := appendEntries_commit_cases cm args
  have hmono : cm.commitIndex < ((AppendEntries cm args).1.log.length : Int) →
      cm.commitIndex ≤ (AppendEntries cm args).1.commitIndex := by
    intro hbound
    rcases hci with heq | ⟨hlt, heq⟩
    · rw [heq]
    · rw [heq]; unfold intMin; split_ifs <;> omega
  refine ⟨⟨hmono, hla, ?_⟩, ?_, ?_⟩
  · intro h1 h2
    rw [hla]
    exact le_trans h1 (hmono h2)
  · unfold leaderAdvanceCommit
    refine foldl_ge_init _ _ _ _ (le_refl ci) ?_
    intro i hi
    have := (List.mem_filter.mp hi).2
    have hlt : ci < (i : Int) := by simpa using this
    omega
  · unfold commitChanStep
    split_ifs with h
    · exact ⟨rfl, fun _ => le_refl _⟩
    · exact ⟨rfl, fun h2 => h2⟩

/-- commit_monotonic at concrete states: a heartbeat raising leaderNode's
commitIndex from -1 to 0, a trivial recomputation, and a dispatch step at
c6wNode. -/
theorem commit_monotonic_witness :
    leaderNode.commitIndex ≤ (AppendEntries leaderNode c7args).1.commitIndex ∧
    (0 : Int) ≤ leaderAdvanceCommit [mkEntry 0 0] 0 [2] (fun _ => 0) 0 ∧
    (commitChanStep c6wNode).1.lastApplied ≤ (commitChanStep c6wNode).1.commitIndex := by
  have h := commit_monotonic leaderNode c6wNode c7args [mkEntry 0 0] 0 [2] (fun _ => 0) 0
  exact ⟨h.1.1 (by decide), h.2.1, h.2.2.2 (by decide)⟩

/-- scanBack lands at the start of the run of entries with term ct that ends
just below its starting point: everything from the result up to k-1 has term
ct, and the entry just below the result (if any) does not. -/
theorem scanBack_spec (lg : List LogEntry) (ct : Int) :
    ∀ k : Nat,
      scanBack lg ct k ≤ k ∧
      (∀ j : Nat, scanBack lg ct k ≤ j → j < k →
        (lg.get? j).map LogEntry.Term = some ct) ∧
      (scanBack lg ct k = 0 ∨
        (lg.get? (scanBack lg ct k - 1)).map LogEntry.Term ≠ some ct) := by
  intro k
  induction k with
  | zero =>
    refine ⟨le_refl 0, ?_, Or.inl rfl⟩
    intro j h1 h2
    exact absurd h2 (by omega)
  | succ k ih =>
    by_cases h : (lg.get? k).map LogEntry.Term ≠ some ct
    · have hs : scanBack lg ct (k+1) = k+1 := by rw [scanBack, if_pos h]
      rw [hs]
      refine ⟨le_refl _, ?_, Or.inr ?_⟩
      · intro j h1 h2
        exact absurd h2 (Nat.not_lt.mpr h1)
      · simpa using h
    · push_neg at h
      have hs : scanBack lg ct (k+1) = scanBack lg ct k := by
        rw [scanBack, if_neg (not_ne_iff.mpr h)]
      rw [hs]
      obtain ⟨ih1, ih2, ih3⟩ := ih
      refine ⟨le_trans ih1 (Nat.le_succ k), ?_, ih3⟩
      intro j h1 h2
      rcases Nat.lt_succ_iff_lt_or_eq.mp h2 with hj | rfl
      · exact ih2 j h1 hj
      · exact h

/-- sorted_term_le: in a log with nondecreasing terms, the entry at a lower
position has a term at most that of a higher position. -/
theorem sorted_term_le (lg : List LogEntry)
    (hsort : lg.Pairwise (fun a b => a.Term ≤ b.Term))
    (i j : Nat) (ei ej : LogEntry) (hij : i ≤ j)
    (hi : lg.get? i = some ei) (hj : lg.get? j = some ej) : ei.Term ≤ ej.Term := by
  rcases Nat.eq_or_lt_of_le hij with rfl | hlt
  · rw [hi] at hj
    cases hj
    exact le_refl _
  · have hjlen : j < lg.length := by
      by_contra hc
      rw [List.get?_eq_none.mpr (by omega)] at hj
      exact Option.noConfusion hj
    have hilen : i < lg.length := lt_trans hlt hjlen
    have hpw := List.pairwise_iff_get.mp hsort ⟨i, hilen⟩ ⟨j, hjlen⟩ hlt
    rw [List.get?_eq_get hilen] at hi
    rw [List.get?_eq_get hjlen] at hj
    cases hi
    cases hj
    exact hpw

/-- computeConflict on a log with nondecreasing terms: the conflict term is
the term at position p, and the conflict index is the smallest position
whose entry carries that term. -/
theorem computeConflict_spec (lg : List LogEntry) (p : Nat) (e : LogEntry)
    (hp : lg.get? p = some e)
    (hsort : lg.Pairwise (fun a b => a.Term ≤ b.Term)) :
    (computeConflict lg (p : Int)).2 = e.Term ∧
    ∃ jn : Nat, (computeConflict lg (p : Int)).1 = (jn : Int) ∧ jn ≤ p ∧
      (lg.get? jn).map LogEntry.Term = some e.Term ∧
      ∀ j : Nat, j < jn → (lg.get? j).map LogEntry.Term ≠ some e.Term := by
  have hlen : p < lg.length := by
    by_contra hc
    rw [List.get?_eq_none.mpr (by omega)] at hp
    exact Option.noConfusion hp
  have hnotge : ¬ ((p : Int) ≥ (lg.length : Int)) := by
    simp only [not_le, Nat.cast_lt]
    exact hlen
  unfold computeConflict
  rw [if_neg hnotge]
  have htonat : (p : Int).toNat = p := Int.toNat_natCast p
  rw [htonat, hp]
  dsimp only [Option.map_some, Option.getD_some]
  obtain ⟨hle, hrun, hedge⟩ := scanBack_spec lg e.Term p
  refine ⟨rfl, scanBack lg e.Term p, rfl, hle, ?_, ?_⟩
  · rcases Nat.eq_or_lt_of_le hle with heq | hlt
    · rw [heq, hp]
      rfl
    · exact hrun _ (le_refl _) hlt
  · intro j hj
    rcases hedge with h0 | hne
    · exact absurd hj (by omega)
    · have hr1 : scanBack lg e.Term p - 1 < lg.length := by omega
      obtain ⟨e1, he1⟩ : ∃ e1, lg.get? (scanBack lg e.Term p - 1) = some e1 :=
        ⟨lg.get ⟨_, hr1⟩, List.get?_eq_get hr1⟩
      have hjlen : j < lg.length := by omega
      obtain ⟨e2, he2⟩ : ∃ e2, lg.get? j = some e2 :=
        ⟨lg.get ⟨j, hjlen⟩, List.get?_eq_get hjlen⟩
      have hne1 : e1.Term ≠ e.Term := by
        intro hcontra
        apply hne
        rw [he1]
        simp [hcontra]
      have h12 : e2.Term ≤ e1.Term :=
        sorted_term_le lg hsort j _ e2 e1 (by omega) he2 he1
      have h1e : e1.Term ≤ e.Term :=
        sorted_term_le lg hsort _ p e1 e (by omega) he1 hp
      rw [he2]
      simp only [Option.map_some', ne_eq, Option.some.injEq]
      omega

/-- computeConflict on any log: the conflict term is the term at position p,
and the conflict index is the start of the contiguous run of entries with
that term ending at p — every position from it up to p carries the term, and
the position just below it (if any) does not. -/
theorem computeConflict_run (lg : List LogEntry) (p : Nat) (e : LogEntry)
    (hp : lg.get? p = some e) :
    (computeConflict lg (p : Int)).2 = e.Term ∧
    ∃ jn : Nat, (computeConflict lg (p : Int)).1 = (jn : Int) ∧ jn ≤ p ∧
      (∀ j : Nat, jn ≤ j → j ≤ p → (lg.get? j).map LogEntry.Term = some e.Term) ∧
      (jn = 0 ∨ (lg.get? (jn - 1)).map LogEntry.Term ≠ some e.Term) := by
  have hlen : p < lg.length := by
    by_contra hc
    rw [List.get?_eq_none.mpr (by omega)] at hp
    exact Option.noConfusion hp
  have hnotge : ¬ ((p : Int) ≥ (lg.length : Int)) := by
    simp only [not_le, Nat.cast_lt]
    exact hlen
  unfold computeConflict
  rw [if_neg hnotge]
  have htonat : (p : Int).toNat = p := Int.toNat_natCast p
  rw [htonat, hp]
  dsimp only [Option.map_some', Option.getD_some]
  obtain ⟨hle, hrun, hedge⟩ := scanBack_spec lg e.Term p
  refine ⟨rfl, scanBack lg e.Term p, rfl, hle, ?_, hedge⟩
  intro j h1 h2
  rcases Nat.eq_or_lt_of_le h2 with rfl | hlt
  · rw [hp]
    rfl
  · exact hrun j h1 hlt

/-- appendEntries_reject: when the node is alive, the request term matches,
and the prev-entry check fails, the handler replies failure with the
conflict hints of computeConflict and its (unchanged) current term. -/
theorem appendEntries_reject (cm : ConsensusModule) (args : AppendEntriesArgs)
    (hdead : cm.state ≠ CMState.Dead) (hterm : args.Term = cm.currentTerm)
    (hmatch : ¬ appendEntriesMatch cm.log args.PrevLogIndex args.PrevLogTerm) :
    (AppendEntries cm args).2 =
      { Term := cm.currentTerm, Success := false,
        ConflictIndex := (computeConflict cm.log args.PrevLogIndex).1,
        ConflictTerm := (computeConflict cm.log args.PrevLogIndex).2 } := by
  have hgt : ¬ (args.Term > cm.currentTerm) := by omega
  unfold AppendEntries
  rw [if_neg hdead, if_neg hgt]
  dsimp only
  rw [if_pos hterm]
  by_cases hf : cm.state ≠ CMState.Follower
  · rw [if_pos hf]
    simp only [becomeFollower]
    rw [if_neg hmatch, hterm]
  · rw [if_neg hf]
    rw [if_neg hmatch]

/-- C2 (amended): on a failing prev-entry check at the request's (current)
term, the handler sets conflict_index = log length and conflict_term = -1
when prev_log_index is at least the log length; otherwise conflict_term is
the term of the local entry at prev_log_index and conflict_index is the
start of the contiguous run of entries with that term ending at
prev_log_index (every position from conflict_index through prev_log_index
carries the term and the position just below does not) — which is the
smallest index holding that term whenever the log's terms are nondecreasing
(the form in which the spec states it). -/
theorem appendEntries_conflict_hints (cm : ConsensusModule) (args : AppendEntriesArgs)
    (hdead : cm.state ≠ CMState.Dead) (hterm : args.Term = cm.currentTerm) :
    (args.PrevLogIndex ≥ (cm.log.length : Int) →
      (AppendEntries cm args).2 =
        { Term := cm.currentTerm, Success := false,
          ConflictIndex := (cm.log.length : Int), ConflictTerm := -1 }) ∧
    (∀ e : LogEntry, 0 ≤ args.PrevLogIndex →
      cm.log.get? args.PrevLogIndex.toNat = some e →
      e.Term ≠ args.PrevLogTerm →
      cm.log.Pairwise (fun a b => a.Term ≤ b.Term) →
      ((AppendEntries cm args).2.Success = false ∧
        (AppendEntries cm args).2.ConflictTerm = e.Term ∧
        ∃ jn : Nat, (AppendEntries cm args).2.ConflictIndex = (jn : Int) ∧
          (jn : Int) ≤ args.PrevLogIndex ∧
          (cm.log.get? jn).map LogEntry.Term = some e.Term ∧
          ∀ j : Nat, j < jn → (cm.log.get? j).map LogEntry.Term ≠ some e.Term)) ∧
    (∀ e : LogEntry, 0 ≤ args.PrevLogIndex →
      cm.log.get? args.PrevLogIndex.toNat = some e →
      e.Term ≠ args.PrevLogTerm →
      ((AppendEntries cm args).2.Success = false ∧
        (AppendEntries cm args).2.ConflictTerm = e.Term ∧
        ∃ jn : Nat, (AppendEntries cm args).2.ConflictIndex = (jn : Int) ∧
          (jn : Int) ≤ args.PrevLogIndex ∧
          (∀ j : Nat, jn ≤ j → (j : Int) ≤ args.PrevLogIndex →
            (cm.log.get? j).map LogEntry.Term = some e.Term) ∧
          (jn = 0 ∨ (cm.log.get? (jn - 1)).map LogEntry.Term ≠ some e.Term))) := by
  refine ⟨?_, ?_, ?_⟩
  · intro hge
    have hlen0 : (0 : Int) ≤ (cm.log.length : Int) := by positivity
    have hmatch : ¬ appendEntriesMatch cm.log args.PrevLogIndex args.PrevLogTerm := by
      unfold appendEntriesMatch
      push_neg
      exact ⟨by omega, fun hc => absurd hc (by omega)⟩
    rw [appendEntries_reject cm args hdead hterm hmatch]
    unfold computeConflict
    rw [if_pos hge]
  · intro e h0 hp hne hsort
    have hlen : args.PrevLogIndex.toNat < cm.log.length := by
      by_contra hc
      rw [List.get?_eq_none.mpr (by omega)] at hp
      exact Option.noConfusion hp
    have hmatch : ¬ appendEntriesMatch cm.log args.PrevLogIndex args.PrevLogTerm := by
      unfold appendEntriesMatch
      push_neg
      refine ⟨by omega, fun _ => ?_⟩
      rw [hp]
      intro hc
      exact hne (by injection hc)
    rw [appendEntries_reject cm args hdead hterm hmatch]
    have hcast : ((args.PrevLogIndex.toNat : Nat) : Int) = args.PrevLogIndex :=
      Int.toNat_of_nonneg h0
    rw [← hcast]
    obtain ⟨hct, jn, hcj, hjle, hjterm, hjmin⟩ :=
      computeConflict_spec cm.log args.PrevLogIndex.toNat e hp hsort
    exact ⟨rfl, hct, jn, hcj, by exact_mod_cast hjle, hjterm, hjmin⟩
  · intro e h0 hp hne
    have hlen : args.PrevLogIndex.toNat < cm.log.length := by
      by_contra hc
      rw [List.get?_eq_none.mpr (by omega)] at hp
      exact Option.noConfusion hp
    have hmatch : ¬ appendEntriesMatch cm.log args.PrevLogIndex args.PrevLogTerm := by
      unfold appendEntriesMatch
      push_neg
      refine ⟨by omega, fun _ => ?_⟩
      rw [hp]
      intro hc
      exact hne (by injection hc)
    rw [appendEntries_reject cm args hdead hterm hmatch]
    have hcast : ((args.PrevLogIndex.toNat : Nat) : Int) = args.PrevLogIndex :=
      Int.toNat_of_nonneg h0
    rw [← hcast]
    obtain ⟨hct, jn, hcj, hjle, hjrun, hjedge⟩ :=
      computeConflict_run cm.log args.PrevLogIndex.toNat e hp
    refine ⟨rfl, hct, jn, hcj, by exact_mod_cast hjle, ?_, hjedge⟩
    intro j hj1 hj2
    exact hjrun j hj1 (by exact_mod_cast hj2)

/-- appendEntries_conflict_hints at a concrete follower: probing c2wNode
(log terms 1, 2, 2) at PrevLogIndex 2 with PrevLogTerm 3 fails with
conflict_term 2 and conflict_index 1, the smallest index with term 2 — the
index is pinned to 1 using only the theorem's existence, term and
minimality conclusions evaluated on the concrete log. -/
theorem appendEntries_conflict_hints_witness :
    (AppendEntries c2wNode c2wArgs).2.Success = false ∧
    (AppendEntries c2wNode c2wArgs).2.ConflictTerm = 2 ∧
    (AppendEntries c2wNode c2wArgs).2.ConflictIndex = 1 := by
  obtain ⟨hs, hct, jn, hci, hle, hjterm, hjmin⟩ :=
    (appendEntries_conflict_hints c2wNode c2wArgs (by decide) (by decide)).2.1
      (mkEntry 2 2) (by decide) (by decide) (by decide) (by decide)
  refine ⟨hs, hct, ?_⟩
  have hjn2 : jn ≤ 2 := by
    rw [show c2wArgs.PrevLogIndex = (2 : Int) from rfl] at hle
    exact_mod_cast hle
  have hjn0 : jn ≠ 0 := by
    intro h0
    rw [h0] at hjterm
    exact absurd hjterm (by decide)
  have hjnne2 : jn ≠ 2 := by
    intro h2
    exact (hjmin 1 (by omega)) (by decide)
  have hjn1 : jn = 1 := by omega
  rw [hci, hjn1]
  rfl

/-- C2 counterexample: c2node's log terms are 1, 2, 1, so term 1 recurs in
two separate runs. A failing probe at PrevLogIndex 2 yields conflict_term 1
and conflict_index 2, yet index 0 already holds term 1: the handler does not
return the smallest index with the conflict term on such a log, only the
start of the final run. -/
theorem appendEntries_conflictIndex_not_min :
    (AppendEntries c2node c2args).2.Success = false ∧
    (AppendEntries c2node c2args).2.ConflictTerm = 1 ∧
    (AppendEntries c2node c2args).2.ConflictIndex = 2 ∧
    (c2node.log.get? 0).map LogEntry.Term = some 1 := by
  decide

/-- foldl_pick_last: folding "replace the accumulator by i when q i holds"
over a strictly increasing index list either leaves the accumulator
untouched (no element qualifies) or returns the largest qualifying
element. -/
theorem foldl_pick_last (q : Nat → Bool) :
    ∀ (l : List Nat) (c : Int), l.Pairwise (· < ·) →
      ((l.foldl (fun a i => if q i then (i : Int) else a) c = c ∧
          ∀ i ∈ l, ¬ q i = true) ∨
        (∃ i ∈ l, q i = true ∧
          l.foldl (fun a i => if q i then (i : Int) else a) c = (i : Int) ∧
          ∀ j ∈ l, q j = true → j ≤ i)) := by
  intro l
  induction l with
  | nil =>
    intro c _
    left
    exact ⟨rfl, by simp⟩
  | cons a t ih =>
    intro c hp
    have ha := (List.pairwise_cons.mp hp).1
    have hp' := (List.pairwise_cons.mp hp).2
    simp only [List.foldl_cons]
    by_cases hq : q a = true
    · rw [if_pos hq]
      rcases ih (a : Int) hp' with ⟨heq, hnone⟩ | ⟨i, hi, hqi, heq, hmax⟩
      · right
        refine ⟨a, List.mem_cons_self a t, hq, heq, ?_⟩
        intro j hj hqj
        rcases List.mem_cons.mp hj with rfl | hj
        · exact le_refl _
        · exact absurd hqj (hnone j hj)
      · right
        refine ⟨i, List.mem_cons_of_mem _ hi, hqi, heq, ?_⟩
        intro j hj hqj
        rcases List.mem_cons.mp hj with rfl | hj
        · exact le_of_lt (ha i hi)
        · exact hmax j hj hqj
    · rw [if_neg hq]
      rcases ih c hp' with ⟨heq, hnone⟩ | ⟨i, hi, hqi, heq, hmax⟩
      · left
        refine ⟨heq, ?_⟩
        intro i hi
        rcases List.mem_cons.mp hi with rfl | hi
        · exact hq
        · exact hnone i hi
      · right
        refine ⟨i, List.mem_cons_of_mem _ hi, hqi, heq, ?_⟩
        intro j hj hqj
        rcases List.mem_cons.mp hj with rfl | hj
        · exact absurd hqj hq
        · exact hmax j hj hqj

/-- commitQualifies agrees with its propositional reading. -/
theorem commitQualifies_iff (lg : List LogEntry) (ct : Int) (peerIds : List Int)
    (mi : Int → Int) (i : Nat) :
    commitQualifies lg ct peerIds mi i = true ↔ commitQualifiesP lg ct peerIds mi i := by
  unfold commitQualifies commitQualifiesP
  cases h : lg.get? i with
  | none => simp
  | some e => simp

/-- C1: the leader's recomputation considers exactly the indices strictly
above the commitIndex at entry and below the log length; index i qualifies
when its entry's term equals currentTerm and 1 (the leader) plus the peers
whose matchIndex reached i beats the strict majority over peerCount + 1;
the result is the largest qualifying index, or the old commitIndex when none
qualifies — so an entry whose term differs from currentTerm never advances
commitIndex through this rule. -/
theorem leaderAdvanceCommit_spec (lg : List LogEntry) (ct : Int) (peerIds : List Int)
    (mi : Int → Int) (ci : Int) :
    ((leaderAdvanceCommit lg ct peerIds mi ci = ci ∧
        ∀ i : Nat, ci < (i : Int) → ¬ commitQualifiesP lg ct peerIds mi i) ∨
      (∃ i : Nat, ci < (i : Int) ∧ commitQualifiesP lg ct peerIds mi i ∧
        leaderAdvanceCommit lg ct peerIds mi ci = (i : Int) ∧
        ∀ j : Nat, ci < (j : Int) → commitQualifiesP lg ct peerIds mi j → j ≤ i)) ∧
    ((∀ i : Nat, ci < (i : Int) → ∀ e, lg.get? i = some e → e.Term ≠ ct) →
      leaderAdvanceCommit lg ct peerIds mi ci = ci) := by
  have hlenP : ∀ i : Nat, commitQualifiesP lg ct peerIds mi i → i < lg.length := by
    intro i hP
    obtain ⟨⟨e, he, -⟩, -⟩ := hP
    by_contra hc
    rw [List.get?_eq_none.mpr (by omega)] at he
    exact Option.noConfusion he
  have hmem : ∀ i : Nat,
      (i ∈ (List.range lg.length).filter (fun i : Nat => decide (ci < (i : Int)))) ↔
        (i < lg.length ∧ ci < (i : Int)) := by
    intro i
    simp [List.mem_filter, List.mem_range]
  have hpw : ((List.range lg.length).filter
      (fun i : Nat => decide (ci < (i : Int)))).Pairwise (· < ·) :=
    (List.pairwise_lt_range _).filter _
  have hmain : (leaderAdvanceCommit lg ct peerIds mi ci = ci ∧
      ∀ i : Nat, ci < (i : Int) → ¬ commitQualifiesP lg ct peerIds mi i) ∨
      (∃ i : Nat, ci < (i : Int) ∧ commitQualifiesP lg ct peerIds mi i ∧
        leaderAdvanceCommit lg ct peerIds mi ci = (i : Int) ∧
        ∀ j : Nat, ci < (j : Int) → commitQualifiesP lg ct peerIds mi j → j ≤ i) := by
    unfold leaderAdvanceCommit
    rcases foldl_pick_last (commitQualifies lg ct peerIds mi)
        ((List.range lg.length).filter (fun i : Nat => decide (ci < (i : Int)))) ci hpw with
      ⟨heq, hnone⟩ | ⟨i, hi, hqi, heq, hmax⟩
    · left
      refine ⟨heq, ?_⟩
      intro i hci hP
      exact (hnone i ((hmem i).mpr ⟨hlenP i hP, hci⟩))
        ((commitQualifies_iff lg ct peerIds mi i).mpr hP)
    · right
      refine ⟨i, ((hmem i).mp hi).2, (commitQualifies_iff lg ct peerIds mi i).mp hqi,
        heq, ?_⟩
      intro j hcj hPj
      exact hmax j ((hmem j).mpr ⟨hlenP j hPj, hcj⟩)
        ((commitQualifies_iff lg ct peerIds mi j).mpr hPj)
  refine ⟨hmain, ?_⟩
  intro hterm
  rcases hmain with ⟨heq, -⟩ | ⟨i, hci, hP, heq, -⟩
  · exact heq
  · obtain ⟨⟨e, he, het⟩, -⟩ := hP
    exact absurd het (hterm i hci e he)

/-- leaderAdvanceCommit_spec applied with an empty log: no index qualifies,
so commitIndex stays -1. -/
theorem leaderAdvanceCommit_spec_witness :
    leaderAdvanceCommit [] 2 [2, 3] (fun _ => 0) (-1) = -1 :=
  (leaderAdvanceCommit_spec [] 2 [2, 3] (fun _ => 0) (-1)).2
    (by intro i hi e he; simp at he)

/-- Concrete check of the majority rule: with two current-term entries and
one peer already matching index 1, the leader plus that peer are 2 of 3, so
commitIndex advances to the largest such index, 1. -/
example :
    leaderAdvanceCommit [mkEntry 2 0, mkEntry 2 1] 2 [2, 3]
      (fun p => if p = 2 then 1 else -1) (-1) = 1 := by
  decide

/-- Concrete check of the term guard (invariant I4): an entry from an older
term never advances commitIndex even when every peer matches it. -/
example :
    leaderAdvanceCommit [mkEntry 1 0] 2 [2, 3] (fun _ => 0) (-1) = -1 := by
  decide

/-- persistRecordFields_none_iff applied at a fresh node, whose log is
empty: the persistence step panics (none). -/
theorem persistRecordFields_none_iff_witness :
    persistRecordFields (newConsensusModule 1) = none :=
  (persistRecordFields_none_iff (newConsensusModule 1)).mpr rfl

/-- filterMap over lookups that all succeed is a plain map. -/
theorem filterMap_lookup_eq_map (fields : List (String × String)) (v : String → String) :
    ∀ l : List String, (∀ k ∈ l, fields.lookup k = some (v k)) →
      l.filterMap (fun k => fields.lookup k) = l.map v := by
  intro l
  induction l with
  | nil => intro _; rfl
  | cons a t ih =>
    intro h
    rw [List.filterMap_cons, h a (List.mem_cons_self a t), List.map_cons,
      ih (fun k hk => h k (List.mem_cons_of_mem _ hk))]

/-- persistRecordFields on a node whose last entry is e: the record holds,
in insertion order, the hex of length - 1, the decimal current term, the
rendered command, leader, chosen and vote of the last entry. -/
theorem persistRecordFields_of_getLast (cm : ConsensusModule) (e : LogEntry)
    (hl : cm.log.getLast? = some e) :
    persistRecordFields cm = some
      [("Id", natToHex (cm.log.length - 1)),
       ("Term", intToDec cm.currentTerm),
       ("Command", fmtService e.Command),
       ("Leader", intToDec e.LeaderId),
       ("Chosen", intToDec e.ChosenId),
       ("VotedFor", intToDec cm.votedFor)] := by
  have hne : cm.log ≠ [] := by
    intro hc
    rw [hc] at hl
    exact Option.noConfusion hl
  have hlen : 1 ≤ cm.log.length := by
    cases h : cm.log with
    | nil => exact absurd h hne
    | cons a t => simp [h]
  have hget : cm.log.get? (cm.log.length - 1) = some e := by
    rw [← List.getLast?_eq_get? cm.log]
    exact hl
  unfold persistRecordFields
  dsimp only
  rw [if_neg (by omega : ¬ ((cm.log.length : Int) - 1 < 0)), hget]

/-- C8 (amended): for every iteration order of the record map — a
permutation of the six keys, chosen nondeterministically by the Go runtime —
the stored checksum is the lowercase hex SHA-512 digest of the concatenation
of the other field values in that order; the order the claim lists (Id,
Term, Command, Leader, Chosen, VotedFor) is one possible run, but the digest
is not a function of the node state alone. -/
theorem persistChecksum_spec (cm : ConsensusModule) (e : LogEntry)
    (hl : cm.log.getLast? = some e) (order : List String)
    (hperm : order.Perm persistKeys) :
    persistChecksum cm order =
      some (sha512hex (strBytes (String.join (order.map (fun k =>
        if k = "Id" then natToHex (cm.log.length - 1)
        else if k = "Term" then intToDec cm.currentTerm
        else if k = "Command" then fmtService e.Command
        else if k = "Leader" then intToDec e.LeaderId
        else if k = "Chosen" then intToDec e.ChosenId
        else intToDec cm.votedFor))))) := by
  have hval : ∀ k ∈ order,
      ([("Id", natToHex (cm.log.length - 1)),
        ("Term", intToDec cm.currentTerm),
        ("Command", fmtService e.Command),
        ("Leader", intToDec e.LeaderId),
        ("Chosen", intToDec e.ChosenId),
        ("VotedFor", intToDec cm.votedFor)] : List (String × String)).lookup k =
        some (if k = "Id" then natToHex (cm.log.length - 1)
          else if k = "Term" then intToDec cm.currentTerm
          else if k = "Command" then fmtService e.Command
          else if k = "Leader" then intToDec e.LeaderId
          else if k = "Chosen" then intToDec e.ChosenId
          else intToDec cm.votedFor) := by
    intro k hk
    have hk6 : k ∈ persistKeys := hperm.mem_iff.mp hk
    simp only [persistKeys, List.mem_cons, List.not_mem_nil, or_false] at hk6
    rcases hk6 with rfl | rfl | rfl | rfl | rfl | rfl <;> rfl
  unfold persistChecksum checksumInput
  rw [persistRecordFields_of_getLast cm e hl]
  dsimp only [Option.map_some']
  rw [filterMap_lookup_eq_map _ _ order hval]
  rfl

/-- persistChecksum_spec at c8node with the insertion-order iteration: the
stored checksum is the SHA-512 hex digest of the concatenation of the six
field values in the order the claim lists. -/
theorem persistChecksum_spec_witness :
    persistChecksum c8node persistKeys =
      some (sha512hex (strBytes (String.join (persistKeys.map (fun k =>
        if k = "Id" then natToHex (c8node.log.length - 1)
        else if k = "Term" then intToDec c8node.currentTerm
        else if k = "Command" then fmtService c8entry.Command
        else if k = "Leader" then intToDec c8entry.LeaderId
        else if k = "Chosen" then intToDec c8entry.ChosenId
        else intToDec c8node.votedFor))))) :=
  persistChecksum_spec c8node c8entry rfl persistKeys (List.Perm.refl _)

/-- C8 counterexample: under two legitimate map iteration orders (both
permutations of the record's keys) the checksum stored for the very same
node state differs, so the checksum is not determined by the field values
in the claim's fixed order, and persisting the same state twice can store
different checksums. -/
theorem persistChecksum_order_dependent :
    persistKeysSwapped.Perm persistKeys ∧
    persistChecksum c8node persistKeysSwapped ≠ persistChecksum c8node persistKeys := by
  constructor
  · decide
  · set_option maxRecDepth 1000000 in decide

end CModule
